import Mathlib

/-!
Verification development for the core synchronization engine of `oxide_sync`,
a delta-transfer file mirroring utility.  The delta engine
(`src/cryptography/signatures.rs`, `src/cryptography/index_table.rs`,
`src/cryptography/delta.rs`), the receiver-side exclude filter (`src/main.rs`)
and the sender-side pipeline handshake (`src/pipeline/mod.rs`) are embedded
shallowly: bytes are `Nat`s, Rust `i64` arithmetic is `Int` with Rust's
truncating `%` rendered as `Int.tmod`, fallible operations return `Except`,
and panics become `Option` results.
-/

deriving instance DecidableEq for Except

namespace OxideSync

/-! ## Weak rolling signatures (`src/cryptography/signatures.rs`) -/

/-- `pub const MODULUS: i64 = 1 << 16;` -/
def MODULUS : Int := 1 <<< 16

/-- `WeakSignatureBlock { offset: u64, signature: i64, r1: i64, r2: i64 }`. -/
structure WeakSignatureBlock where
  offset : Nat
  signature : Int
  r1 : Int
  r2 : Int
deriving Repr, DecidableEq

/-- `WeakSignature { block_size: usize, data: Box<[u8]> }`: a signer over a
fixed byte buffer. -/
structure WeakSignature where
  block_size : Nat
  data : List Nat
deriving Repr, DecidableEq

namespace WeakSignature

/-- `WeakSignature::sign(offset)`: the weak signature of the window
`data[offset .. offset + block_size)`.  The Rust code slices
`&self.data[offset..offset + self.block_size]` (panicking out of range); the
embedding takes the same window with `drop`/`take`, and every use below stays
in range. -/
def sign (s : WeakSignature) (offset : Nat) : WeakSignatureBlock :=
  let block := (s.data.drop offset).take s.block_size
  let r1 : Int := (block.map (fun (b : Nat) => (b : Int))).sum.tmod MODULUS
  let r2 : Int :=
    ((block.enum.map (fun (p : Nat × Nat) =>
        ((s.block_size : Int) - (p.1 : Int)) * (p.2 : Int))).sum).tmod
      MODULUS
  let r : Int := (r1 + MODULUS * r2).tmod (MODULUS * MODULUS)
  ⟨offset, r, r1, r2⟩

/-- `WeakSignature::compute_next_signature(prev)`: roll the window one byte
forward, or return `prev` unchanged when the new window would fall off the
end of the buffer. -/
def compute_next_signature (s : WeakSignature) (prev : WeakSignatureBlock) :
    WeakSignatureBlock :=
  let new_offset := prev.offset + 1
  let old_idx := prev.offset
  let new_idx := old_idx + s.block_size
  if new_idx ≥ s.data.length then
    prev
  else
    let old_byte : Int := (s.data.getD old_idx 0 : Int)
    let new_byte : Int := (s.data.getD new_idx 0 : Int)
    let r1 := ((prev.r1 - old_byte + new_byte).tmod MODULUS + MODULUS).tmod MODULUS
    let r2 := ((prev.r2 - ((s.block_size : Int) * old_byte) + r1).tmod MODULUS +
        MODULUS).tmod MODULUS
    let r := (r1 + MODULUS * r2).tmod (MODULUS * MODULUS)
    ⟨new_offset, r, r1, r2⟩

end WeakSignature

/-- Modelled from the spec: `compute_strong_signature` in the source hex-encodes
a Blake2s-256 digest of the window (the `blake2` crate, whose code is not part
of this repository).  The spec uses the digest only through equality tests that
confirm candidate matches ("Used only to confirm candidate matches found by
weak-signature collision"), so the digest is modelled as an injective
fingerprint: the window's bytes themselves. -/
def compute_strong_signature (data : List Nat) : List Nat := data

/-! ## Index table (`src/cryptography/index_table.rs`) -/

/-- `IndexTableChunk { strong_signature: String, index: usize }` (strong
signatures are byte fingerprints in this model). -/
structure IndexTableChunk where
  strong_signature : List Nat
  index : Nat
deriving Repr, DecidableEq

/-- `IndexTable { map: HashMap<i64, IndexTableChunk> }`, modelled as an
association list with the hash map's insert-overwrites semantics. -/
structure IndexTable where
  map : List (Int × IndexTableChunk)
deriving Repr, DecidableEq

namespace IndexTable

/-- `IndexTable::new()`. -/
def new : IndexTable := ⟨[]⟩

/-- `IndexTable::add`: `self.map.insert(weak_signature.get_signature(), chunk)`.
`HashMap::insert` replaces any existing binding of the key. -/
def add (t : IndexTable) (weak_signature : WeakSignatureBlock)
    (strong_signature : List Nat) (index : Nat) : IndexTable :=
  ⟨(weak_signature.signature, ⟨strong_signature, index⟩) ::
    t.map.filter (fun p => p.1 ≠ weak_signature.signature)⟩

/-- `IndexTable::find(signature)`: look the weak value up, returning
`(chunk.index, chunk.strong_signature)`. -/
def find (t : IndexTable) (signature : Int) : Option (Nat × List Nat) :=
  match t.map.find? (fun p => p.1 = signature) with
  | some p => some (p.2.index, p.2.strong_signature)
  | none => none

end IndexTable

/-! ## Delta (`src/cryptography/delta.rs`) -/

/-- `enum Ops { Index(usize), Block(Vec<u8>) }`. -/
inductive Ops where
  | Index : Nat → Ops
  | Block : List Nat → Ops
deriving Repr, DecidableEq

/-- `struct Delta { ops: Vec<Ops> }`. -/
structure Delta where
  ops : List Ops
deriving Repr, DecidableEq

/-- `io::Error` values produced by `Delta::apply`: the single
`InvalidData` error `"Invalid block index {index} for base length {len}"`. -/
inductive ApplyError where
  | InvalidBlockIndex : Nat → Nat → ApplyError
deriving Repr, DecidableEq

namespace Delta

/-- `Delta::new()`. -/
def new : Delta := ⟨[]⟩

/-- `Delta::add_block`. -/
def add_block (d : Delta) (block : List Nat) : Delta :=
  ⟨d.ops ++ [Ops.Block block]⟩

/-- `Delta::add_index`. -/
def add_index (d : Delta) (index : Nat) : Delta :=
  ⟨d.ops ++ [Ops.Index index]⟩

/-- `Delta::add_byte`: push into the last op when it is a `Block`, otherwise
(empty delta or trailing `Index`) start a fresh one-byte `Block`. -/
def add_byte (d : Delta) (byte : Nat) : Delta :=
  match d.ops.getLast? with
  | none => d.add_block [byte]
  | some (Ops.Block block) => ⟨d.ops.dropLast ++ [Ops.Block (block ++ [byte])]⟩
  | some (Ops.Index _) => d.add_block [byte]

/-- `Delta::is_valid`. -/
def is_valid (d : Delta) : Bool := !d.ops.isEmpty

/-- The loop body of `Delta::apply`, with the output accumulator explicit. -/
def applyOps (base : List Nat) (block_size : Nat) :
    List Ops → List Nat → Except ApplyError (List Nat)
  | [], output => .ok output
  | Ops.Index index :: rest, output =>
      let start := index * block_size
      let stop := min (start + block_size) base.length
      if start ≥ base.length then
        .error (.InvalidBlockIndex index base.length)
      else
        applyOps base block_size rest (output ++ (base.drop start).take (stop - start))
  | Ops.Block bytes :: rest, output =>
      applyOps base block_size rest (output ++ bytes)

/-- `Delta::apply(base, block_size)`. -/
def apply (d : Delta) (base : List Nat) (block_size : Nat) :
    Except ApplyError (List Nat) :=
  applyOps base block_size d.ops []

end Delta

/-- Fuel-bounded core of [`chunksExact`]: each step consumes `block_size ≥ 1`
bytes, so fuel `data.length` always suffices and the fuel-exhausted arm is
unreachable from [`chunksExact`]. -/
def chunksExactAux (block_size : Nat) : Nat → List Nat → List (List Nat)
  | 0, _ => []
  | fuel + 1, data =>
      if 0 < block_size ∧ block_size ≤ data.length then
        data.take block_size :: chunksExactAux block_size fuel (data.drop block_size)
      else
        []

/-- Rust's `base.chunks_exact(block_size)`: the maximal block-aligned full
chunks; a tail shorter than `block_size` is dropped.  (`chunks_exact(0)`
panics in Rust; callers below only use a positive `block_size`.) -/
def chunksExact (block_size : Nat) (data : List Nat) : List (List Nat) :=
  chunksExactAux block_size data.length data

namespace Delta

/-- The `else` arm of the base-table loop in `Delta::diff` (lines 128-142):
for each later chunk, roll the previous weak block by **one byte** and store
it with the chunk's strong signature under the running chunk index `i`. -/
def baseTableLoop (signer_base : WeakSignature) :
    List (List Nat) → Nat → WeakSignatureBlock → IndexTable → IndexTable
  | [], _, _, t => t
  | block :: rest, i, prev_hash, t =>
      let rolling := signer_base.compute_next_signature prev_hash
      let strong := compute_strong_signature block
      baseTableLoop signer_base rest (i + 1) rolling (t.add rolling strong i)

/-- The degenerate short-base weak value of `Delta::diff` (line 123):
`base.iter().map(|&b| b as i64).sum::<i64>() % MODULUS`. -/
def shortBaseWeakVal (base : List Nat) : Int :=
  (base.map (fun (b : Nat) => (b : Int))).sum.tmod MODULUS

/-- The degenerate short-base weak block of `Delta::diff` (line 124):
`WeakSignatureBlock::new(0, weak_val, weak_val, weak_val)` (constructor order
`offset, signature, r1, r2`). -/
def shortBaseWeakBlock (base : List Nat) : WeakSignatureBlock :=
  ⟨0, shortBaseWeakVal base, shortBaseWeakVal base, shortBaseWeakVal base⟩

/-- The base-side index-table construction of `Delta::diff` (lines 116-143):
degenerate single entry for a short base, otherwise `sign(0)` for chunk 0 and
one-byte rolls for the following chunks. -/
def buildIndexTable (base : List Nat) (block_size : Nat) : IndexTable :=
  let signer_base := WeakSignature.mk block_size base
  if base.length < block_size then
    let strong := compute_strong_signature base
    IndexTable.new.add (shortBaseWeakBlock base) strong 0
  else
    match chunksExact block_size base with
    | [] => IndexTable.new
    | block :: rest =>
        let sign := signer_base.sign 0
        let strong := compute_strong_signature block
        let t := IndexTable.new.add sign strong 0
        baseTableLoop signer_base rest 1 sign t

/-- The scan loop of `Delta::diff` (lines 164-215) over the `new` buffer.
State: position `i`, the `unmatched` literal buffer, the optional rolling
hash `prev_hash`, and the delta built so far.  On a weak hit confirmed by the
strong signature it flushes `unmatched`, emits the base index and jumps a
whole block; otherwise it shifts one literal byte and rolls the hash.  On
loop exit the tail `new[i..]` joins `unmatched`, which is flushed if
non-empty.
The recursion is bounded by `fuel`: every iteration advances `i` by at least
one and the loop runs only while `i + block_size ≤ |new|`, so `|new| + 1`
iterations always suffice; `diff` supplies exactly that, making the
fuel-exhausted arm unreachable (it repeats the loop-exit code so that both
exits read identically). -/
def diffLoop (signer_new : WeakSignature) (index_table : IndexTable)
    («new» : List Nat) (block_size : Nat) :
    Nat → Nat → List Nat → Option WeakSignatureBlock → Delta → Delta
  | 0, i, unmatched_buffer, _, delta =>
      let unmatched_buffer := unmatched_buffer ++ «new».drop i
      if unmatched_buffer.isEmpty then delta else delta.add_block unmatched_buffer
  | fuel + 1, i, unmatched_buffer, prev_hash, delta =>
    if i + block_size ≤ «new».length then
      -- `match prev_hash { Some(h) => h, None => sign(i) }`; the source's
      -- `None` arm also writes the recomputed hash back into `prev_hash`,
      -- but every continuation overwrites `prev_hash` before using it, so
      -- that write is dead and `Option.getD` captures the semantics.
      let cur_hash := prev_hash.getD (signer_new.sign i)
      let confirmed : Option Nat :=
        match index_table.find cur_hash.signature with
        | some (base_index, strong) =>
            if strong = compute_strong_signature ((«new».drop i).take block_size) then
              some base_index
            else
              none
        | none => none
      match confirmed with
      | some base_index =>
          let delta :=
            if unmatched_buffer.isEmpty then delta else delta.add_block unmatched_buffer
          let delta := delta.add_index base_index
          let i := i + block_size
          let prev_hash :=
            if i + block_size ≤ «new».length then some (signer_new.sign i) else none
          diffLoop signer_new index_table «new» block_size fuel i [] prev_hash delta
      | none =>
          let unmatched_buffer := unmatched_buffer ++ [«new».getD i 0]
          let i := i + 1
          let prev_hash :=
            if i + block_size ≤ «new».length then
              some (signer_new.compute_next_signature cur_hash)
            else
              none
          diffLoop signer_new index_table «new» block_size fuel i unmatched_buffer
            prev_hash delta
    else
      let unmatched_buffer := unmatched_buffer ++ «new».drop i
      if unmatched_buffer.isEmpty then delta else delta.add_block unmatched_buffer

/-- `Delta::diff(base, new, block_size)`.  (With `block_size = 0` the source
panics inside `chunks_exact(0)` before producing anything; every claim below
assumes a positive block size.) -/
def diff (base «new» : List Nat) (block_size : Nat) : Delta :=
  let index_table := buildIndexTable base block_size
  if «new».length < block_size then
    if !«new».isEmpty then Delta.new.add_block «new» else Delta.new
  else
    let signer_new := WeakSignature.mk block_size «new»
    diffLoop signer_new index_table «new» block_size («new».length + 1) 0 []
      (some (signer_new.sign 0)) Delta.new

end Delta

/-! ## Dump (`Delta::dump`) -/

/-- Whether `c` is a UTF-8 continuation byte (`0x80..=0xBF`). -/
def isCont (c : Nat) : Bool := 0x80 ≤ c && c ≤ 0xBF

/-- Modelled from the spec: `core::str::from_utf8` (Rust standard library, not
part of this repository) succeeds exactly on well-formed UTF-8.  This is the
standard UTF-8 well-formedness predicate on byte sequences (RFC 3629 table):
ASCII, two- to four-byte sequences with their continuation-byte ranges,
overlongs, surrogates and values above `U+10FFFF` rejected. -/
def validUtf8 : List Nat → Bool
  | [] => true
  | b :: rest =>
    if b < 0x80 then
      validUtf8 rest
    else if 0xC2 ≤ b && b ≤ 0xDF then
      match rest with
      | c1 :: rest' => isCont c1 && validUtf8 rest'
      | [] => false
    else if b = 0xE0 then
      match rest with
      | c1 :: c2 :: rest' => (0xA0 ≤ c1 && c1 ≤ 0xBF) && isCont c2 && validUtf8 rest'
      | _ => false
    else if (0xE1 ≤ b && b ≤ 0xEC) || b = 0xEE || b = 0xEF then
      match rest with
      | c1 :: c2 :: rest' => isCont c1 && isCont c2 && validUtf8 rest'
      | _ => false
    else if b = 0xED then
      match rest with
      | c1 :: c2 :: rest' => (0x80 ≤ c1 && c1 ≤ 0x9F) && isCont c2 && validUtf8 rest'
      | _ => false
    else if b = 0xF0 then
      match rest with
      | c1 :: c2 :: c3 :: rest' =>
          (0x90 ≤ c1 && c1 ≤ 0xBF) && isCont c2 && isCont c3 && validUtf8 rest'
      | _ => false
    else if 0xF1 ≤ b && b ≤ 0xF3 then
      match rest with
      | c1 :: c2 :: c3 :: rest' => isCont c1 && isCont c2 && isCont c3 && validUtf8 rest'
      | _ => false
    else if b = 0xF4 then
      match rest with
      | c1 :: c2 :: c3 :: rest' =>
          (0x80 ≤ c1 && c1 ≤ 0x8F) && isCont c2 && isCont c3 && validUtf8 rest'
      | _ => false
    else
      false

/-- The ASCII bytes of the decimal rendering of `n` (`write!("{}", n)`). -/
def decimalAscii (n : Nat) : List Nat := (Nat.toDigits 10 n).map Char.toNat

/-- The bytes `Delta::dump` emits for one `Index(i)` op: the text `<b*i*>`. -/
def indexRender (i : Nat) : List Nat := [60, 98, 42] ++ decimalAscii i ++ [42, 62]

namespace Delta

/-- One iteration of the `Delta::dump` loop: `Index(index)` appends the text
`<b*index*>`; a `Block` appends its bytes through
`core::str::from_utf8(...).expect(...)` — a panic (modelled as `none`) when
they are not valid UTF-8. -/
def dumpStep (acc : Option (List Nat)) (op : Ops) : Option (List Nat) :=
  match acc, op with
  | none, _ => none
  | some s, Ops.Index index => some (s ++ indexRender index)
  | some s, Ops.Block block =>
      if validUtf8 block then some (s ++ block) else none

/-- `Delta::dump` at the byte level. -/
def dump (d : Delta) : Option (List Nat) :=
  d.ops.foldl dumpStep (some [])

end Delta

/-- What `Delta::dump` emits for one op (when no literal block panics). -/
def renderOp : Ops → List Nat
  | Ops.Index index => indexRender index
  | Ops.Block block => block

/-! ## Receiver-side exclude filter (`src/main.rs`)

Paths are modelled as their component lists, matching `std::path::Path`'s
component-wise `starts_with`/`ends_with`. -/

/-- `opts.exclude.iter().any(|p| e.path().starts_with(p) || e.path().ends_with(p))`
(both enumeration branches test exactly this). -/
def excludeMatches (exclude : List (List String)) (path : List String) : Bool :=
  exclude.any (fun p => p.isPrefixOf path || p.isSuffixOf path)

/-- The recursive enumeration branch (`main.rs` lines 61-67) *keeps* a file
iff the exclude test does **not** match (a match skips the entry). -/
def recursiveKeeps (exclude : List (List String)) (path : List String) : Bool :=
  !excludeMatches exclude path

/-- The non-recursive enumeration branch (`main.rs` lines 122-128) returns
`None` when the exclude test does **not** match, i.e. it *keeps* a file iff
the test matches. -/
def nonRecursiveKeeps (exclude : List (List String)) (path : List String) : Bool :=
  excludeMatches exclude path

/-! ## Pipeline handshake (`src/pipeline/mod.rs`, `src/pipeline/structs.rs`) -/

/-- `ClientServerOpts` (`src/cli/mod.rs`), paths as strings. -/
structure ClientServerOpts where
  «to» : String
  delete : Bool
  recursive : Bool
  dry_run : Bool
  verbose : Bool
  exclude : List String
deriving Repr, DecidableEq

/-- `SSHMessageError` (`src/pipeline/structs.rs`). -/
inductive SSHMessageError where
  | IoError : String → SSHMessageError
  | TransferError : String → SSHMessageError
  | FatalError : String → SSHMessageError
deriving Repr, DecidableEq

/-- `FlistEntry` (`src/pipeline/structs.rs`). -/
structure FlistEntry where
  index : Nat
  filename : String
  size : Nat
  mtime : Int
  mode : Nat
  uid : Option Nat
  gid : Option Nat
  is_dir : Bool
  is_symlink : Bool
deriving Repr, DecidableEq

/-- `DataMessage` (`src/pipeline/structs.rs`). -/
structure DataMessage where
  offset : Nat
  bytes : List Nat
  file_index : Nat
deriving Repr, DecidableEq

/-- `Message` (`src/pipeline/structs.rs`), all nineteen wire variants. -/
inductive Message where
  | SYNC
  | ACK
  | NACK
  | Arguments : ClientServerOpts → Message
  | Data : DataMessage → Message
  | Redo : Nat → Message
  | Done
  | Error : SSHMessageError → Message
  | Info : String → Message
  | Warning : String → Message
  | FlistEntry : FlistEntry → Message
  | FlistEnd
  | Restore : List Nat → Message
  | Deleted : Nat → Message
  | Success : Nat → Message
  | Degenerate : Nat → Message
  | Stats : List Nat → Message
  | IoTimeout
  | NoSend : Nat → Message
deriving Repr, DecidableEq

/-- `pipeline::Error` (`src/pipeline/mod.rs`).  The wrapped foreign payloads
(`SSHMessageError`, `tokio::io::Error`, bincode's encode/decode errors) are
not inspected by the pipeline; the I/O and codec variants carry no payload
here, and the source's two-letter I/O variant name is spelled `IOError`. -/
inductive PError where
  | Message : SSHMessageError → PError
  | IOError : PError
  | Encoding : PError
  | Decoding : PError
  | UnexpectedMessage : Message → PError
  | Nack : PError
  | IoTimeout : PError
deriving Repr, DecidableEq

/-- `PipelineState` (`src/pipeline/structs.rs`). -/
inductive PipelineState where
  | Disconnected
  | Connecting
  | Connected
  | Error : PError → PipelineState
deriving Repr, DecidableEq

/-- The pipeline fields `Pipeline::init` touches: the `connected` state (the
tunnel is modelled by explicit message lists, `flist`/`stats` are untouched
by `init`). -/
structure Pipeline where
  connected : PipelineState
  flist : List FlistEntry
  stats : List Nat
deriving Repr, DecidableEq

namespace Pipeline

/-- `Pipeline::init`, with the tunnel modelled explicitly: `incoming` is what
`read_message` will deliver, and the result carries (written messages, final
pipeline, remaining incoming, returned `Result`).  The code writes `SYNC`,
sets `Connecting`, then reads one message: `ACK` gives `Connected` and
`Ok(())`; `NACK` gives `Error(Nack)` and `Err(Nack)`; anything else gives
`Error(UnexpectedMessage(msg))` and that error.  An exhausted `incoming`
models a failed `read_message` (the `?` returns the I/O error with the state
still `Connecting`). -/
def init (p : Pipeline) (incoming : List Message) :
    List Message × Pipeline × List Message × Except PError Unit :=
  let written := [Message.SYNC]
  let p := { p with connected := PipelineState.Connecting }
  match incoming with
  | [] => (written, p, [], .error .IOError)
  | msg :: rest =>
    match msg with
    | Message.ACK =>
        (written, { p with connected := PipelineState.Connected }, rest, .ok ())
    | Message.NACK =>
        (written, { p with connected := PipelineState.Error PError.Nack }, rest,
          .error PError.Nack)
    | m =>
        (written,
          { p with connected := PipelineState.Error (PError.UnexpectedMessage m) },
          rest, .error (PError.UnexpectedMessage m))

end Pipeline

/-! ## Theorems -/

/-! ### Arithmetic helpers for Rust's truncating `%` -/

theorem MODULUS_eq : MODULUS = 65536 := by decide

/-- Rust's `%` (`Int.tmod`) is bounded below by `-b` for a positive modulus. -/
theorem neg_lt_tmod (a b : Int) (hb : 0 < b) : -b < a.tmod b := by
  cases a with
  | ofNat m =>
      have h := Int.tmod_nonneg b (show (0 : Int) ≤ Int.ofNat m from Int.ofNat_nonneg m)
      omega
  | negSucc m =>
      cases b with
      | ofNat n =>
          have h1 : (Int.negSucc m).tmod (Int.ofNat n) =
              -((Int.ofNat (m + 1)) % (Int.ofNat n)) := rfl
          have h2 := Int.emod_lt_of_pos (Int.ofNat (m + 1)) hb
          omega
      | negSucc n =>
          rw [Int.negSucc_eq] at hb
          omega

/-- The source's positivity normalization `((x % M) + M) % M` computes the
mathematical residue `x mod M`. -/
theorem tmod_norm (x M : Int) (hM : 0 < M) : ((x.tmod M) + M).tmod M = x % M := by
  have h1 : 0 ≤ x.tmod M + M := by
    have := neg_lt_tmod x M hM
    omega
  rw [Int.tmod_eq_emod h1 (le_of_lt hM), Int.tmod_def]
  have h2 : x - M * x.tdiv M + M = x + M * (1 - x.tdiv M) := by ring
  rw [h2, Int.add_mul_emod_self_left]

/-- A nonnegative value's truncating remainder is the mathematical residue. -/
theorem tmod_of_nonneg {x : Int} (M : Int) (hx : 0 ≤ x) (hM : 0 ≤ M) :
    x.tmod M = x % M :=
  Int.tmod_eq_emod hx hM

/-! ### C8: the `Pipeline::init` handshake -/

/-- **C8.** `Pipeline::init`, starting from `Disconnected`, writes `SYNC` and
sets the state to `Connecting`; then, on reading `ACK` it sets the state to
`Connected` and returns `Ok`; on reading `NACK` it sets the state to
`Error(Nack)` and returns the `Nack` error; on reading any other message `m`
it sets the state to `Error(UnexpectedMessage(m))` and returns that error. -/
theorem pipeline_init_handshake (p : Pipeline)
    (hp : p.connected = PipelineState.Disconnected) :
    (∀ incoming, (Pipeline.init p incoming).1 = [Message.SYNC]) ∧
    (Pipeline.init p []).2.1.connected = PipelineState.Connecting ∧
    (∀ rest, Pipeline.init p (Message.ACK :: rest) =
      ([Message.SYNC], { p with connected := PipelineState.Connected }, rest,
        .ok ())) ∧
    (∀ rest, Pipeline.init p (Message.NACK :: rest) =
      ([Message.SYNC], { p with connected := PipelineState.Error PError.Nack }, rest,
        .error PError.Nack)) ∧
    (∀ m rest, m ≠ Message.ACK → m ≠ Message.NACK →
      Pipeline.init p (m :: rest) =
        ([Message.SYNC],
          { p with connected := PipelineState.Error (PError.UnexpectedMessage m) },
          rest, .error (PError.UnexpectedMessage m))) := by
  refine ⟨fun incoming => ?_, rfl, fun rest => rfl, fun rest => rfl,
    fun m rest hACK hNACK => ?_⟩
  · cases incoming with
    | nil => rfl
    | cons msg rest => cases msg <;> rfl
  · cases m <;> first | rfl | exact absurd rfl hACK | exact absurd rfl hNACK

/-- Witness for `pipeline_init_handshake` at a concrete pipeline, discharging
its hypotheses on concrete messages. -/
theorem pipeline_init_handshake_witness :
    Pipeline.init ⟨PipelineState.Disconnected, [], []⟩ [Message.Done] =
      ([Message.SYNC],
        ⟨PipelineState.Error (PError.UnexpectedMessage Message.Done), [], []⟩,
        [], .error (PError.UnexpectedMessage Message.Done)) :=
  (pipeline_init_handshake ⟨PipelineState.Disconnected, [], []⟩ rfl).2.2.2.2
    Message.Done [] (by decide) (by decide)

/-! ### C7: exclude semantics of the two enumeration branches -/

/-- **C7 (code bug).**  The claim says an entry is excluded iff some exclude
path is a prefix or a suffix of it, identically in both enumeration branches.
The recursive branch does exactly that, but the non-recursive branch inverts
the test: with exclude list `[x]`, the non-matching entry `a` is kept by the
recursive branch yet dropped by the non-recursive one. -/
theorem exclude_branches_disagree :
    excludeMatches [["x"]] ["a"] = false ∧
    recursiveKeeps [["x"]] ["a"] = true ∧
    nonRecursiveKeeps [["x"]] ["a"] = false := by
  decide

/-! ### C9: `add_byte` coalescence -/

/-- Folding `add_byte` over a delta whose last op is a literal block extends
that block in place. -/
theorem foldl_add_byte_block (bytes : List Nat) :
    ∀ (pre : List Ops) (block : List Nat),
      List.foldl Delta.add_byte ⟨pre ++ [Ops.Block block]⟩ bytes =
        ⟨pre ++ [Ops.Block (block ++ bytes)]⟩ := by
  induction bytes with
  | nil => intro pre block; simp
  | cons b bs ih =>
      intro pre block
      have hstep : Delta.add_byte ⟨pre ++ [Ops.Block block]⟩ b =
          ⟨pre ++ [Ops.Block (block ++ [b])]⟩ := by
        simp [Delta.add_byte]
      simp only [List.foldl_cons, hstep, ih, List.append_assoc, List.singleton_append]

/-- **C9 (counterexample).**  The claim quantifies over *every* sequence of
`add_byte` calls; for the empty sequence the delta stays empty rather than
consisting of exactly one (empty) `Block` op. -/
theorem add_byte_empty_seq_counterexample :
    (List.foldl Delta.add_byte Delta.new []).ops ≠ [Ops.Block []] := by
  decide

/-- **C9 (amended).**  After any *nonempty* sequence of `add_byte` calls on a
freshly created `Delta`, the delta consists of exactly one `Block` op
containing those bytes in order; and in general `add_byte` appends into the
last op when it is a `Block`, and starts a new one-byte `Block` exactly when
the delta is empty or its last op is an `Index`. -/
theorem add_byte_coalescence :
    (∀ bytes : List Nat, bytes ≠ [] →
      (List.foldl Delta.add_byte Delta.new bytes).ops = [Ops.Block bytes]) ∧
    (∀ (d : Delta) (b : Nat),
      (d.ops = [] → (d.add_byte b).ops = [Ops.Block [b]]) ∧
      (∀ pre block, d.ops = pre ++ [Ops.Block block] →
        (d.add_byte b).ops = pre ++ [Ops.Block (block ++ [b])]) ∧
      (∀ pre j, d.ops = pre ++ [Ops.Index j] →
        (d.add_byte b).ops = pre ++ [Ops.Index j, Ops.Block [b]])) := by
  constructor
  · intro bytes hne
    match bytes, hne with
    | b :: bs, _ =>
        have h0 : Delta.add_byte Delta.new b = ⟨[] ++ [Ops.Block [b]]⟩ := by
          simp [Delta.add_byte, Delta.new, Delta.add_block]
        rw [List.foldl_cons, h0, foldl_add_byte_block bs [] [b]]
        simp
  · intro d b
    refine ⟨fun h => ?_, fun pre block h => ?_, fun pre j h => ?_⟩
    · simp [Delta.add_byte, h, Delta.add_block]
    · cases d with
      | mk ops => cases h; simp [Delta.add_byte]
    · cases d with
      | mk ops => cases h; simp [Delta.add_byte, Delta.add_block]

/-- Witness for `add_byte_coalescence` at concrete inputs. -/
theorem add_byte_coalescence_witness :
    (List.foldl Delta.add_byte Delta.new [7, 8, 9]).ops = [Ops.Block [7, 8, 9]] ∧
    ((⟨[Ops.Index 3]⟩ : Delta).add_byte 5).ops = [Ops.Index 3, Ops.Block [5]] := by
  constructor
  · exact add_byte_coalescence.1 [7, 8, 9] (by decide)
  · exact ((add_byte_coalescence.2 ⟨[Ops.Index 3]⟩ 5).2.2 [] 3 rfl)

/-! ### C6: the degenerate short-base table entry -/

/-- **C6.**  When `|base| < B`, the base-side table built by `diff` has
exactly one entry, at block index 0: its key is the degenerate weak value
`(Σ bytes) mod 2^16`, which the constructed weak block carries in all three
fields `signature`, `r1`, `r2`; its strong signature is the digest of the
whole base. -/
theorem short_base_degenerate_entry (base : List Nat) (block_size : Nat)
    (h : base.length < block_size) :
    (Delta.buildIndexTable base block_size).map =
      [(Delta.shortBaseWeakVal base, ⟨compute_strong_signature base, 0⟩)] ∧
    Delta.shortBaseWeakVal base = (base.sum : Int) % 2 ^ 16 ∧
    (Delta.shortBaseWeakBlock base).signature = Delta.shortBaseWeakVal base ∧
    (Delta.shortBaseWeakBlock base).r1 = Delta.shortBaseWeakVal base ∧
    (Delta.shortBaseWeakBlock base).r2 = Delta.shortBaseWeakVal base ∧
    (Delta.shortBaseWeakBlock base).offset = 0 := by
  refine ⟨?_, ?_, rfl, rfl, rfl, rfl⟩
  · simp [Delta.buildIndexTable, h, IndexTable.add, IndexTable.new,
      Delta.shortBaseWeakBlock]
  · have hsum : ((base.map (fun (b : Nat) => (b : Int))).sum) = (base.sum : Int) := by
      induction base with
      | nil => rfl
      | cons x xs ih =>
          simp only [List.map_cons, List.sum_cons, ih]
          push_cast
          ring
    have hnn : (0 : Int) ≤ (base.sum : Int) := Int.natCast_nonneg _
    have hM : (0 : Int) ≤ MODULUS := by decide
    rw [Delta.shortBaseWeakVal, hsum, tmod_of_nonneg MODULUS hnn hM, MODULUS_eq]
    norm_num

/-! ### C1: the diff/apply round trip -/

/-- Extending the op list extends the `apply` run: once a prefix of ops has
produced `o`, the appended ops continue from `o`. -/
theorem applyOps_append_ok (base : List Nat) (block_size : Nat) (ops2 : List Ops) :
    ∀ (ops1 : List Ops) (out o : List Nat),
      Delta.applyOps base block_size ops1 out = .ok o →
      Delta.applyOps base block_size (ops1 ++ ops2) out =
        Delta.applyOps base block_size ops2 o := by
  intro ops1
  induction ops1 with
  | nil =>
      intro out o h
      cases h
      rfl
  | cons op rest ih =>
      intro out o h
      cases op with
      | Index j =>
          by_cases hj : j * block_size ≥ base.length
          · rw [show Delta.applyOps base block_size (Ops.Index j :: rest) out =
                .error (.InvalidBlockIndex j base.length) from by
              simp [Delta.applyOps, hj]] at h
            cases h
          · rw [show Delta.applyOps base block_size (Ops.Index j :: rest) out =
                Delta.applyOps base block_size rest (out ++
                  (base.drop (j * block_size)).take
                    (min (j * block_size + block_size) base.length -
                      j * block_size)) from by simp [Delta.applyOps, hj]] at h
            rw [List.cons_append, show Delta.applyOps base block_size
                (Ops.Index j :: (rest ++ ops2)) out =
                Delta.applyOps base block_size (rest ++ ops2) (out ++
                  (base.drop (j * block_size)).take
                    (min (j * block_size + block_size) base.length -
                      j * block_size)) from by simp [Delta.applyOps, hj]]
            exact ih _ o h
      | Block bytes =>
          rw [show Delta.applyOps base block_size (Ops.Block bytes :: rest) out =
              Delta.applyOps base block_size rest (out ++ bytes) from rfl] at h
          rw [List.cons_append, show Delta.applyOps base block_size
              (Ops.Block bytes :: (rest ++ ops2)) out =
              Delta.applyOps base block_size (rest ++ ops2) (out ++ bytes) from rfl]
          exact ih _ o h

/-- Taking one more element appends the element at position `i`. -/
theorem take_succ_getD (l : List Nat) (i : Nat) (hi : i < l.length) :
    l.take (i + 1) = l.take i ++ [l.getD i 0] := by
  rw [List.take_succ, List.getElem?_eq_getElem hi, List.getD_eq_getElem l 0 hi]
  rfl

/-- Soundness of a base-side index table: any entry whose stored fingerprint
has window length `B` indexes a full in-bounds base block whose bytes are
that fingerprint.  (The degenerate short-base entry stores a fingerprint
shorter than `B`, so it satisfies this vacuously.) -/
def TableSound (base : List Nat) (block_size : Nat) (t : IndexTable) : Prop :=
  ∀ kv, kv ∈ t.map → kv.2.strong_signature.length = block_size →
    kv.2.index * block_size + block_size ≤ base.length ∧
    (base.drop (kv.2.index * block_size)).take block_size = kv.2.strong_signature

/-- `IndexTable.add` preserves soundness when the added entry is sound. -/
theorem tableSound_add (base : List Nat) (block_size : Nat) (t : IndexTable)
    (w : WeakSignatureBlock) (strong : List Nat) (i : Nat)
    (ht : TableSound base block_size t)
    (hnew : strong.length = block_size →
      i * block_size + block_size ≤ base.length ∧
      (base.drop (i * block_size)).take block_size = strong) :
    TableSound base block_size (t.add w strong i) := by
  intro kv hkv hlen
  rcases List.mem_cons.mp hkv with heq | hmem
  · cases heq
    exact hnew hlen
  · exact ht kv (List.mem_filter.mp hmem).1 hlen

/-- Positions of `chunksExactAux`: the `j`-th chunk is the `j`-th block-aligned
full window of `data`. -/
theorem chunksExactAux_getElem? (block_size : Nat) :
    ∀ (fuel : Nat) (data : List Nat), data.length ≤ fuel →
      ∀ (j : Nat) (c : List Nat), (chunksExactAux block_size fuel data)[j]? = some c →
        c = (data.drop (j * block_size)).take block_size ∧
        j * block_size + block_size ≤ data.length := by
  intro fuel
  induction fuel with
  | zero =>
      intro data hdata j c hc
      simp [chunksExactAux] at hc
  | succ fuel ih =>
      intro data hdata j c hc
      by_cases hguard : 0 < block_size ∧ block_size ≤ data.length
      · rw [show chunksExactAux block_size (fuel + 1) data =
            data.take block_size ::
              chunksExactAux block_size fuel (data.drop block_size) from by
          simp [chunksExactAux, hguard]] at hc
        cases j with
        | zero =>
            simp only [List.getElem?_cons_zero, Option.some.injEq] at hc
            subst hc
            constructor
            · simp
            · simpa using hguard.2
        | succ j =>
            rw [List.getElem?_cons_succ] at hc
            have hdrop : (data.drop block_size).length ≤ fuel := by
              simp only [List.length_drop]
              omega
            have h := ih (data.drop block_size) hdrop j c hc
            rcases h with ⟨hchunk, hbound⟩
            constructor
            · rw [hchunk, List.drop_drop]
              rw [show block_size + j * block_size = (j + 1) * block_size from by ring]
            · simp only [List.length_drop] at hbound
              have hB := hguard.1
              calc (j + 1) * block_size + block_size
                  = j * block_size + block_size + block_size := by ring
                _ ≤ data.length := by omega
      · rw [show chunksExactAux block_size (fuel + 1) data = [] from by
            simp [chunksExactAux, hguard]] at hc
        simp at hc

/-- The base-table loop of `diff` preserves soundness: each chunk it inserts
(whatever weak key the one-byte roll produced) stores the true bytes and the
running index of a full, in-bounds base block. -/
theorem baseTableLoop_sound (base : List Nat) (block_size : Nat)
    (signer : WeakSignature) :
    ∀ (chunks : List (List Nat)) (i : Nat) (prev : WeakSignatureBlock)
      (t : IndexTable),
      (∀ (j : Nat) (c : List Nat), chunks[j]? = some c →
        c = (base.drop ((i + j) * block_size)).take block_size ∧
        (i + j) * block_size + block_size ≤ base.length) →
      TableSound base block_size t →
      TableSound base block_size (Delta.baseTableLoop signer chunks i prev t) := by
  intro chunks
  induction chunks with
  | nil => intro i prev t _ ht; exact ht
  | cons c rest ih =>
      intro i prev t hpos ht
      rw [show Delta.baseTableLoop signer (c :: rest) i prev t =
          Delta.baseTableLoop signer rest (i + 1)
            (signer.compute_next_signature prev)
            (t.add (signer.compute_next_signature prev)
              (compute_strong_signature c) i) from rfl]
      refine ih (i + 1) _ _ (fun j c' hj => ?_) ?_
      · have h := hpos (j + 1) c' (by rwa [List.getElem?_cons_succ])
        rwa [show i + (j + 1) = i + 1 + j from by omega] at h
      · refine tableSound_add base block_size t _ _ i ht (fun _ => ?_)
        have h0 := hpos 0 c (by simp)
        rw [show i + 0 = i from rfl] at h0
        exact ⟨h0.2, h0.1.symm⟩

/-- The base-side table `diff` builds is sound. -/
theorem buildIndexTable_sound (base : List Nat) (block_size : Nat)
    (hB : 0 < block_size) :
    TableSound base block_size (Delta.buildIndexTable base block_size) := by
  by_cases hshort : base.length < block_size
  · intro kv hkv hlen
    rw [show Delta.buildIndexTable base block_size =
        IndexTable.new.add (Delta.shortBaseWeakBlock base)
          (compute_strong_signature base) 0 from by
      simp [Delta.buildIndexTable, hshort]] at hkv
    rcases List.mem_cons.mp hkv with heq | hmem
    · cases heq
      simp only [compute_strong_signature] at hlen
      omega
    · simp [IndexTable.new] at hmem
  · rw [show Delta.buildIndexTable base block_size =
        (match chunksExact block_size base with
        | [] => IndexTable.new
        | block :: rest =>
            Delta.baseTableLoop (WeakSignature.mk block_size base) rest 1
              ((WeakSignature.mk block_size base).sign 0)
              (IndexTable.new.add ((WeakSignature.mk block_size base).sign 0)
                (compute_strong_signature block) 0)) from by
      simp [Delta.buildIndexTable, hshort]]
    rcases hchunks : chunksExact block_size base with _ | ⟨block, rest⟩
    · intro kv hkv _
      simp [IndexTable.new] at hkv
    · have hpos : ∀ (j : Nat) (c : List Nat), (chunksExact block_size base)[j]? = some c →
          c = (base.drop (j * block_size)).take block_size ∧
          j * block_size + block_size ≤ base.length :=
        chunksExactAux_getElem? block_size base.length base le_rfl
      refine baseTableLoop_sound base block_size _ rest 1 _ _ (fun j c hj => ?_) ?_
      · have h := hpos (j + 1) c (by rw [hchunks, List.getElem?_cons_succ]; exact hj)
        rwa [show (1 + j) = j + 1 from by omega]
      · refine tableSound_add base block_size IndexTable.new _ _ 0
          (fun kv hkv _ => by simp [IndexTable.new] at hkv) (fun _ => ?_)
        have h0 := hpos 0 block (by rw [hchunks]; simp)
        rw [show 0 * block_size = 0 from by ring] at h0 ⊢
        exact ⟨by simpa using h0.2, by simpa using h0.1.symm⟩

/-- A successful `find` returns the components of some stored entry. -/
theorem find_mem (t : IndexTable) (sig : Int) (bi : Nat) (strong : List Nat)
    (h : t.find sig = some (bi, strong)) :
    ∃ kv, kv ∈ t.map ∧ kv.2.index = bi ∧ kv.2.strong_signature = strong := by
  unfold IndexTable.find at h
  rcases hfind : t.map.find? (fun p => p.1 = sig) with _ | kv
  · rw [hfind] at h
    cases h
  · rw [hfind] at h
    simp only [Option.some.injEq, Prod.mk.injEq] at h
    exact ⟨kv, List.mem_of_find?_eq_some hfind, h.1, h.2⟩

/-- The scan-loop invariant: if the delta built so far reconstructs exactly
the consumed prefix `new[0..i)` up to the pending `unmatched` literals, then
the finished loop's delta reconstructs all of `new`.  (The rolling-hash state
`prev_hash` only influences *which* candidate matches are tried, never
whether a confirmed match is genuine, so the invariant does not constrain
it.) -/
theorem diffLoop_roundtrip (base : List Nat) (block_size : Nat)
    (hB : 0 < block_size) (table : IndexTable)
    (hsound : TableSound base block_size table)
    (signer : WeakSignature) («new» : List Nat) :
    ∀ (fuel i : Nat) (unmatched : List Nat)
      (prev : Option WeakSignatureBlock) (delta : Delta) (acc : List Nat),
      «new».length - i < fuel →
      i ≤ «new».length →
      Delta.applyOps base block_size delta.ops [] = .ok acc →
      acc ++ unmatched = «new».take i →
      Delta.applyOps base block_size
        (Delta.diffLoop signer table «new» block_size fuel i unmatched prev
          delta).ops [] = .ok «new» := by
  intro fuel
  induction fuel with
  | zero =>
      intro i unmatched prev delta acc hfuel _ _ _
      omega
  | succ fuel ih =>
      intro i unmatched prev delta acc hfuel hi hacc hpre
      by_cases hwin : i + block_size ≤ «new».length
      all_goals rw [Delta.diffLoop]
      · rw [if_pos hwin]
        have hexit : ∀ (delta' : Delta) (acc' : List Nat) (unmatched' : List Nat)
            (i' : Nat), «new».length - i' < fuel → i' ≤ «new».length →
            Delta.applyOps base block_size delta'.ops [] = .ok acc' →
            acc' ++ unmatched' = «new».take i' →
            ∀ prev', Delta.applyOps base block_size
              (Delta.diffLoop signer table «new» block_size fuel i' unmatched'
                prev' delta').ops [] = .ok «new» :=
          fun delta' acc' unmatched' i' h1 h2 h3 h4 prev' =>
            ih i' unmatched' prev' delta' acc' h1 h2 h3 h4
        set cur_hash := prev.getD (signer.sign i) with hcur
        have hbyte : ∀ (cur : WeakSignatureBlock),
            Delta.applyOps base block_size
              (Delta.diffLoop signer table «new» block_size fuel (i + 1)
                (unmatched ++ [«new».getD i 0])
                (if i + 1 + block_size ≤ «new».length then
                  some (signer.compute_next_signature cur)
                else none) delta).ops [] = .ok «new» := by
          intro cur
          refine hexit delta acc (unmatched ++ [«new».getD i 0]) (i + 1)
            (by omega) (by omega) hacc ?_ _
          rw [← List.append_assoc, hpre,
            ← take_succ_getD «new» i (by omega)]
        rcases hfind : table.find cur_hash.signature with _ | ⟨bi, strong⟩
        · simp only [hfind]
          exact hbyte cur_hash
        · simp only [hfind]
          by_cases hstrong : strong =
              compute_strong_signature ((«new».drop i).take block_size)
          · rw [if_pos hstrong]
            -- the confirmed-match branch
            have hwinlen : (((«new».drop i).take block_size)).length = block_size := by
              simp only [List.length_take, List.length_drop]
              omega
            rcases find_mem table _ bi strong hfind with ⟨kv, hkvmem, hkvi, hkvs⟩
            have hkv := hsound kv hkvmem (by
              rw [hkvs, hstrong, compute_strong_signature, hwinlen])
            have hseg : (base.drop (bi * block_size)).take block_size =
                («new».drop i).take block_size := by
              rw [← hkvi, hkv.2, hkvs, hstrong, compute_strong_signature]
            have hbound : bi * block_size + block_size ≤ base.length := by
              rw [← hkvi]
              exact hkv.1
            -- the delta after the flush and the index op applies to
            -- acc ++ unmatched ++ the matched window
            have hflush : Delta.applyOps base block_size
                ((if unmatched.isEmpty then delta
                  else delta.add_block unmatched).add_index bi).ops [] =
                .ok (acc ++ unmatched ++ («new».drop i).take block_size) := by
              have happly_idx : ∀ o, Delta.applyOps base block_size [Ops.Index bi] o =
                  .ok (o ++ («new».drop i).take block_size) := by
                intro o
                have hnotbad : ¬ bi * block_size ≥ base.length := by omega
                have hmin : min (bi * block_size + block_size) base.length =
                    bi * block_size + block_size := by omega
                rw [show Delta.applyOps base block_size [Ops.Index bi] o =
                    Delta.applyOps base block_size [] (o ++
                      (base.drop (bi * block_size)).take
                        (min (bi * block_size + block_size) base.length -
                          bi * block_size)) from by simp [Delta.applyOps, hnotbad]]
                rw [hmin, show bi * block_size + block_size - bi * block_size =
                  block_size from by omega, hseg]
                rfl
              by_cases hemp : unmatched.isEmpty
              · rw [if_pos hemp]
                have hu : unmatched = [] := List.isEmpty_iff.mp hemp
                rw [Delta.add_index,
                  show (⟨delta.ops ++ [Ops.Index bi]⟩ : Delta).ops =
                    delta.ops ++ [Ops.Index bi] from rfl,
                  applyOps_append_ok base block_size [Ops.Index bi] delta.ops [] acc
                    hacc, happly_idx, hu]
                simp
              · rw [if_neg hemp]
                have hblock : Delta.applyOps base block_size
                    (delta.add_block unmatched).ops [] = .ok (acc ++ unmatched) := by
                  rw [Delta.add_block,
                    show (⟨delta.ops ++ [Ops.Block unmatched]⟩ : Delta).ops =
                      delta.ops ++ [Ops.Block unmatched] from rfl,
                    applyOps_append_ok base block_size [Ops.Block unmatched]
                      delta.ops [] acc hacc]
                  rfl
                rw [show ((delta.add_block unmatched).add_index bi).ops =
                    (delta.add_block unmatched).ops ++ [Ops.Index bi] from rfl,
                  applyOps_append_ok base block_size [Ops.Index bi]
                    (delta.add_block unmatched).ops [] (acc ++ unmatched) hblock,
                  happly_idx]
            refine hexit _ (acc ++ unmatched ++ («new».drop i).take block_size) []
              (i + block_size) (by omega) (by omega) hflush ?_ _
            rw [List.append_nil, hpre, ← List.take_add]
          · rw [if_neg hstrong]
            exact hbyte cur_hash
      · rw [if_neg hwin]
        by_cases hemp : (unmatched ++ «new».drop i).isEmpty
        · rw [if_pos hemp]
          have hu : unmatched = [] ∧ «new».drop i = [] :=
            List.append_eq_nil.mp (List.isEmpty_iff.mp hemp)
          have hilen : «new».length ≤ i := by
            have := congrArg List.length hu.2
            simp only [List.length_drop, List.length_nil] at this
            omega
          have hacc' : acc = «new» := by
            have := hpre
            rw [hu.1, List.append_nil, List.take_of_length_le hilen] at this
            exact this
          rw [hacc'] at hacc
          exact hacc
        · rw [if_neg hemp]
          rw [Delta.add_block,
            show (⟨delta.ops ++ [Ops.Block (unmatched ++ «new».drop i)]⟩ : Delta).ops =
              delta.ops ++ [Ops.Block (unmatched ++ «new».drop i)] from rfl,
            applyOps_append_ok base block_size _ delta.ops [] acc hacc]
          rw [show Delta.applyOps base block_size
              [Ops.Block (unmatched ++ «new».drop i)] acc =
              .ok (acc ++ (unmatched ++ «new».drop i)) from rfl]
          rw [← List.append_assoc, hpre, List.take_append_drop]

/-- **C1.**  For every base, every new byte sequence and every block size
`B > 0`, applying the delta produced by `Delta::diff(base, new, B)` to `base`
with block size `B` succeeds and yields exactly `new`. -/
theorem diff_apply_roundtrip (base «new» : List Nat) (block_size : Nat)
    (hB : 0 < block_size) :
    (Delta.diff base «new» block_size).apply base block_size = .ok «new» := by
  simp only [Delta.diff]
  by_cases hshort : «new».length < block_size
  · rw [if_pos hshort]
    by_cases hempty : «new».isEmpty
    · have hnil := List.isEmpty_iff.mp hempty
      subst hnil
      rfl
    · have hne : (!«new».isEmpty) = true := by
        simp only [Bool.not_eq_true'] at hempty ⊢
        exact Bool.not_eq_true _ ▸ (by simpa using hempty)
      rw [if_pos hne, Delta.apply,
        show (Delta.new.add_block «new»).ops = [Ops.Block «new»] from rfl]
      rfl
  · rw [if_neg hshort, Delta.apply]
    exact diffLoop_roundtrip base block_size hB _
      (buildIndexTable_sound base block_size hB) _ «new» («new».length + 1) 0 []
      _ Delta.new [] (by omega) (by omega) rfl rfl

/-- Witness for `diff_apply_roundtrip`: spec scenario S3
(`base = "abcdefg"`, `new = "abcxyzg"`, `B = 4`) as bytes. -/
theorem diff_apply_roundtrip_witness :
    (Delta.diff [97, 98, 99, 100, 101, 102, 103]
        [97, 98, 99, 120, 121, 122, 103] 4).apply
      [97, 98, 99, 100, 101, 102, 103] 4 = .ok [97, 98, 99, 120, 121, 122, 103] :=
  diff_apply_roundtrip [97, 98, 99, 100, 101, 102, 103]
    [97, 98, 99, 120, 121, 122, 103] 4 (by decide)

/-! ### C2: the rolling recurrence agrees with direct signing -/

/-- The raw byte sum of the window `d[k..k+B)`. -/
def windowSum (d : List Nat) (k B : Nat) : Int :=
  ∑ j in Finset.range B, (d.getD (k + j) 0 : Int)

/-- The raw weighted sum `Σ (B−j)·d[k+j]` of the window `d[k..k+B)`. -/
def weightedWindowSum (d : List Nat) (k B : Nat) : Int :=
  ∑ j in Finset.range B, ((B : Int) - (j : Int)) * (d.getD (k + j) 0 : Int)

theorem window_getD (d : List Nat) (k B j : Nat) (hj : j < B) :
    ((d.drop k).take B).getD j 0 = d.getD (k + j) 0 := by
  rw [List.getD_eq_getElem?_getD, List.getD_eq_getElem?_getD, List.getElem?_take,
    if_pos hj, List.getElem?_drop]

theorem window_map_sum (d : List Nat) (B : Nat) :
    ∀ k, k + B ≤ d.length →
      (((d.drop k).take B).map (fun (b : Nat) => (b : Int))).sum = windowSum d k B := by
  induction B with
  | zero => intro k hk; simp [windowSum]
  | succ B ih =>
      intro k hk
      have hklt : k < d.length := by omega
      rw [List.drop_eq_getElem_cons hklt, List.take_succ_cons, List.map_cons,
        List.sum_cons, ih (k + 1) (by omega), windowSum, windowSum,
        Finset.sum_range_succ']
      rw [show (∑ j in Finset.range B, (d.getD (k + (j + 1)) 0 : Int)) =
          ∑ j in Finset.range B, (d.getD (k + 1 + j) 0 : Int) from
        Finset.sum_congr rfl fun j _ => by rw [show k + (j + 1) = k + 1 + j from by omega]]
      rw [show k + 0 = k from rfl, show d.getD k 0 = d[k] from
        List.getD_eq_getElem d 0 hklt]
      ring

theorem enumFrom_weight_sum (B0 : Int) (l : List Nat) :
    ∀ n, ((List.enumFrom n l).map (fun (p : Nat × Nat) =>
        (B0 - (p.1 : Int)) * (p.2 : Int))).sum =
      ∑ j in Finset.range l.length, (B0 - ((n + j : Nat) : Int)) * (l.getD j 0 : Int) := by
  induction l with
  | nil => intro n; simp
  | cons x xs ih =>
      intro n
      rw [List.enumFrom_cons, List.map_cons, List.sum_cons, ih (n + 1),
        List.length_cons, Finset.sum_range_succ']
      simp only [List.getD_cons_succ, List.getD_cons_zero, Nat.add_zero]
      rw [show (∑ j in Finset.range xs.length,
            (B0 - ((n + (j + 1) : Nat) : Int)) * (xs.getD j 0 : Int)) =
          ∑ j in Finset.range xs.length,
            (B0 - ((n + 1 + j : Nat) : Int)) * (xs.getD j 0 : Int) from
        Finset.sum_congr rfl fun j _ => by
          rw [show n + (j + 1) = n + 1 + j from by omega]]
      ring

/-- Shifting the window by one byte drops `d[k]` and picks up `d[k+B]`. -/
theorem windowSum_shift (d : List Nat) (k B : Nat) :
    windowSum d (k + 1) B =
      windowSum d k B - (d.getD k 0 : Int) + (d.getD (k + B) 0 : Int) := by
  cases B with
  | zero => simp [windowSum]
  | succ B =>
      rw [windowSum, Finset.sum_range_succ, windowSum, Finset.sum_range_succ']
      rw [show (∑ j in Finset.range B, (d.getD (k + (j + 1)) 0 : Int)) =
          ∑ j in Finset.range B, (d.getD (k + 1 + j) 0 : Int) from
        Finset.sum_congr rfl fun j _ => by rw [show k + (j + 1) = k + 1 + j from by omega]]
      rw [show k + 1 + B = k + (B + 1) from by omega, show k + 0 = k from rfl]
      ring

/-- Shifting the weighted window sum: the recurrence behind
`compute_next_signature`'s `r2` update. -/
theorem weightedWindowSum_shift (d : List Nat) (k B : Nat) :
    weightedWindowSum d (k + 1) B =
      weightedWindowSum d k B - (B : Int) * (d.getD k 0 : Int) +
        windowSum d (k + 1) B := by
  cases B with
  | zero => simp [weightedWindowSum, windowSum]
  | succ B =>
      rw [weightedWindowSum, Finset.sum_range_succ, weightedWindowSum,
        Finset.sum_range_succ', windowSum, Finset.sum_range_succ]
      rw [show (∑ j in Finset.range B, (((B + 1 : Nat) : Int) - ((j + 1 : Nat) : Int)) *
            (d.getD (k + (j + 1)) 0 : Int)) =
          ∑ j in Finset.range B, (((B + 1 : Nat) : Int) - ((j + 1 : Nat) : Int)) *
            (d.getD (k + 1 + j) 0 : Int) from
        Finset.sum_congr rfl fun j _ => by rw [show k + (j + 1) = k + 1 + j from by omega]]
      rw [show (∑ j in Finset.range B, (((B + 1 : Nat) : Int) - (j : Int)) *
            (d.getD (k + 1 + j) 0 : Int)) + (((B + 1 : Nat) : Int) - (B : Int)) *
              (d.getD (k + 1 + B) 0 : Int) =
          ((∑ j in Finset.range B, (((B + 1 : Nat) : Int) - ((j + 1 : Nat) : Int)) *
            (d.getD (k + 1 + j) 0 : Int)) + ∑ j in Finset.range B,
              (d.getD (k + 1 + j) 0 : Int)) + (((B + 1 : Nat) : Int) - (B : Int)) *
              (d.getD (k + 1 + B) 0 : Int) from by
        rw [← Finset.sum_add_distrib]
        refine congrArg (· + _) (Finset.sum_congr rfl fun j _ => ?_)
        push_cast
        ring]
      rw [show k + 0 = k from rfl, show k + 1 + B = k + (B + 1) from by omega]
      push_cast
      ring

/-- `sign(k)` in closed form: both running values are the window sums reduced
into `[0, M)`, the `signature` their packing. -/
theorem sign_fields (d : List Nat) (B k : Nat) (hk : k + B ≤ d.length) :
    (WeakSignature.mk B d).sign k =
      ⟨k,
        ((windowSum d k B % MODULUS) +
          MODULUS * (weightedWindowSum d k B % MODULUS)).tmod (MODULUS * MODULUS),
        windowSum d k B % MODULUS,
        weightedWindowSum d k B % MODULUS⟩ := by
  have hlen : ((d.drop k).take B).length = B := by
    simp only [List.length_take, List.length_drop]
    omega
  have hr1raw : (((d.drop k).take B).map (fun (b : Nat) => (b : Int))).sum =
      windowSum d k B := window_map_sum d B k hk
  have hr2raw : (((d.drop k).take B).enum.map (fun (p : Nat × Nat) =>
      ((B : Int) - (p.1 : Int)) * (p.2 : Int))).sum = weightedWindowSum d k B := by
    rw [List.enum_eq_enumFrom, enumFrom_weight_sum (B : Int) _ 0, hlen,
      weightedWindowSum]
    refine Finset.sum_congr rfl fun j hj => ?_
    rw [show (0 + j : Nat) = j from by omega,
      window_getD d k B j (Finset.mem_range.mp hj)]
  have hW1nn : 0 ≤ windowSum d k B :=
    Finset.sum_nonneg fun j _ => Int.natCast_nonneg _
  have hW2nn : 0 ≤ weightedWindowSum d k B := by
    refine Finset.sum_nonneg fun j hj => ?_
    have hjB : (j : Int) ≤ (B : Int) := by
      exact_mod_cast Nat.le_of_lt (Finset.mem_range.mp hj)
    have := Int.natCast_nonneg (d.getD (k + j) 0)
    nlinarith
  have hMnn : (0 : Int) ≤ MODULUS := by decide
  simp only [WeakSignature.sign, hr1raw, hr2raw,
    tmod_of_nonneg MODULUS hW1nn hMnn, tmod_of_nonneg MODULUS hW2nn hMnn]

/-- **C2.**  For every byte buffer and window length `B`, rolling agrees
with direct signing: whenever `sign(k)` and `sign(k+1)` are both defined
(`k + 1 + B ≤ |buffer|`), `compute_next_signature(sign(k))` equals
`sign(k+1)` in all fields (`offset`, `r1`, `r2`, `signature`). -/
theorem roll_agrees_with_sign (d : List Nat) (B k : Nat)
    (h : k + 1 + B ≤ d.length) :
    (WeakSignature.mk B d).compute_next_signature ((WeakSignature.mk B d).sign k) =
      (WeakSignature.mk B d).sign (k + 1) := by
  have hk : k + B ≤ d.length := by omega
  have hMpos : (0 : Int) < MODULUS := by decide
  have hguard : ¬ (k + B ≥ d.length) := by omega
  rw [sign_fields d B k hk, sign_fields d B (k + 1) h]
  set old : Int := (d.getD k 0 : Int) with hold
  set nw : Int := (d.getD (k + B) 0 : Int) with hnw
  have hshift1 : windowSum d (k + 1) B = windowSum d k B - old + nw :=
    windowSum_shift d k B
  have hshift2 : weightedWindowSum d (k + 1) B =
      weightedWindowSum d k B - (B : Int) * old + windowSum d (k + 1) B :=
    weightedWindowSum_shift d k B
  have hr1 : ((windowSum d k B % MODULUS - old + nw).tmod MODULUS + MODULUS).tmod
      MODULUS = windowSum d (k + 1) B % MODULUS := by
    rw [tmod_norm _ MODULUS hMpos]
    have e1 : windowSum d k B % MODULUS - old + nw =
        windowSum d (k + 1) B + MODULUS * (-(windowSum d k B / MODULUS)) := by
      rw [Int.emod_def, hshift1]
      ring
    rw [e1, Int.add_mul_emod_self_left]
  have hr2 : ((weightedWindowSum d k B % MODULUS - (B : Int) * old +
      (windowSum d (k + 1) B % MODULUS)).tmod MODULUS + MODULUS).tmod MODULUS =
      weightedWindowSum d (k + 1) B % MODULUS := by
    rw [tmod_norm _ MODULUS hMpos]
    have e2 : weightedWindowSum d k B % MODULUS - (B : Int) * old +
        (windowSum d (k + 1) B % MODULUS) =
        weightedWindowSum d (k + 1) B +
          MODULUS * (-(weightedWindowSum d k B / MODULUS) -
            (windowSum d (k + 1) B / MODULUS)) := by
      rw [Int.emod_def, Int.emod_def, hshift2]
      ring
    rw [e2, Int.add_mul_emod_self_left]
  simp only [WeakSignature.compute_next_signature, if_neg hguard, hr1, hr2]

/-- Witness for `roll_agrees_with_sign`: rolling `sign(0)` over `[1,2,3,4]`
with `B = 2` gives `sign(1)` exactly. -/
theorem roll_agrees_with_sign_witness :
    (WeakSignature.mk 2 [1, 2, 3, 4]).compute_next_signature
        ((WeakSignature.mk 2 [1, 2, 3, 4]).sign 0) =
      (WeakSignature.mk 2 [1, 2, 3, 4]).sign 1 :=
  roll_agrees_with_sign [1, 2, 3, 4] 2 0 (by decide)

/-! ### C4 and C3: the base-side table is built from one-byte rolls, not
block-aligned windows -/

/-- **C4 (code bug).**  The claim (and spec §4.1) requires the table entry for
block `i` to carry the weak signature of the block-aligned window
`base[i·B..i·B+B)`, i.e. `sign(i·B)`.  The source instead rolls **one byte**
per chunk, storing `sign(i)`.  For `base = [0,1,2,3]`, `B = 2`: block 1
(`[2,3]`) is keyed by `sign(1) = 262147` (window `[1,2]`) while
`sign(1·B) = sign(2) = 458757`; looking the mandated key up finds nothing.
(The under-`B` tail indeed contributes no entry: the table has exactly the
two full-chunk entries.) -/
theorem base_table_uses_one_byte_rolls :
    ((WeakSignature.mk 2 [0, 1, 2, 3]).sign 2).signature = 458757 ∧
    ((WeakSignature.mk 2 [0, 1, 2, 3]).sign 1).signature = 262147 ∧
    (Delta.buildIndexTable [0, 1, 2, 3] 2).map =
      [(262147, ⟨compute_strong_signature [2, 3], 1⟩),
       (65537, ⟨compute_strong_signature [0, 1], 0⟩)] ∧
    (Delta.buildIndexTable [0, 1, 2, 3] 2).find
      ((WeakSignature.mk 2 [0, 1, 2, 3]).sign 2).signature = none := by
  decide

/-- **C3 (code bug).**  Because the base table is keyed by one-byte rolls
(see `base_table_uses_one_byte_rolls`), `diff(X, X, 2)` for `X = [0,1,2,3]`
matches only block 0 and emits the second aligned block as a literal:
`[Index 0, Block [2,3]]` instead of the claimed all-`Index` delta
`[Index 0, Index 1]`.  The first half of the claim does hold here: applying
the delta to `X` still reproduces `X`. -/
theorem diff_identity_not_all_index :
    (Delta.diff [0, 1, 2, 3] [0, 1, 2, 3] 2).ops =
      [Ops.Index 0, Ops.Block [2, 3]] ∧
    (Delta.diff [0, 1, 2, 3] [0, 1, 2, 3] 2).apply [0, 1, 2, 3] 2 =
      .ok [0, 1, 2, 3] := by
  decide

/-! ### C5: `apply` bounds -/

/-- The `apply` loop fails (with `InvalidBlockIndex`) exactly when some
`Index(i)` op satisfies `i·B ≥ |base|`, whatever output has accumulated. -/
theorem applyOps_error_iff (base : List Nat) (block_size : Nat) (ops : List Ops) :
    ∀ output, (∃ e, Delta.applyOps base block_size ops output = .error e) ↔
      ∃ i, Ops.Index i ∈ ops ∧ base.length ≤ i * block_size := by
  induction ops with
  | nil => intro output; simp [Delta.applyOps]
  | cons op rest ih =>
      intro output
      cases op with
      | Index j =>
          by_cases hj : base.length ≤ j * block_size
          · constructor
            · intro _
              exact ⟨j, List.mem_cons_self _ _, hj⟩
            · intro _
              refine ⟨ApplyError.InvalidBlockIndex j base.length, ?_⟩
              simp [Delta.applyOps, hj]
          · rw [show Delta.applyOps base block_size (Ops.Index j :: rest) output =
                Delta.applyOps base block_size rest
                  (output ++ (base.drop (j * block_size)).take
                    (min (j * block_size + block_size) base.length - j * block_size))
                from by simp [Delta.applyOps, hj]]
            rw [ih]
            constructor
            · rintro ⟨i, hi, hb⟩
              exact ⟨i, List.mem_cons_of_mem _ hi, hb⟩
            · rintro ⟨i, hmem, hb⟩
              rcases List.mem_cons.mp hmem with heq | hi
              · cases heq
                exact absurd hb hj
              · exact ⟨i, hi, hb⟩
      | Block bytes =>
          rw [show Delta.applyOps base block_size (Ops.Block bytes :: rest) output =
              Delta.applyOps base block_size rest (output ++ bytes) from rfl]
          rw [ih]
          constructor
          · rintro ⟨i, hi, hb⟩
            exact ⟨i, List.mem_cons_of_mem _ hi, hb⟩
          · rintro ⟨i, hmem, hb⟩
            rcases List.mem_cons.mp hmem with heq | hi
            · cases heq
            · exact ⟨i, hi, hb⟩

/-- **C5.**  `Delta::apply(base, B)` errors (with `InvalidBlockIndex`) iff the
delta contains some `Index(i)` with `i·B ≥ |base|`; an `Index(i)` referencing
a truncated tail block (`i·B < |base| < i·B + B`) succeeds and appends
`base[i·B..|base|)`; and a `Block(b)` op always succeeds, appending `b`
verbatim. -/
theorem apply_bounds (d : Delta) (base : List Nat) (block_size : Nat)
    (hB : 0 < block_size) :
    ((∃ e, d.apply base block_size = .error e) ↔
      ∃ i, Ops.Index i ∈ d.ops ∧ base.length ≤ i * block_size) ∧
    (∀ i, i * block_size < base.length → base.length < i * block_size + block_size →
      Delta.apply ⟨[Ops.Index i]⟩ base block_size =
        .ok (base.drop (i * block_size))) ∧
    (∀ bytes, Delta.apply ⟨[Ops.Block bytes]⟩ base block_size = .ok bytes) := by
  refine ⟨applyOps_error_iff base block_size d.ops [], fun i h1 h2 => ?_,
    fun bytes => ?_⟩
  · have hmin : min (i * block_size + block_size) base.length = base.length := by
      omega
    have hnot : ¬ i * block_size ≥ base.length := by omega
    have htake : (base.drop (i * block_size)).take (base.length - i * block_size) =
        base.drop (i * block_size) := by
      apply List.take_of_length_le
      simp
    simp [Delta.apply, Delta.applyOps, hnot, hmin, htake]
  · simp [Delta.apply, Delta.applyOps]

/-- Witness for `apply_bounds`: spec scenario S6 (`Index(99)` against a
ten-byte base with `B = 5` fails) plus a truncated tail copy and a literal. -/
theorem apply_bounds_witness :
    (∃ e, Delta.apply ⟨[Ops.Index 99]⟩ [1, 2, 3, 4, 5, 6, 7, 8, 9, 10] 5 =
      .error e) ∧
    Delta.apply ⟨[Ops.Index 1]⟩ [1, 2, 3, 4, 5, 6, 7] 5 = .ok [6, 7] ∧
    Delta.apply ⟨[Ops.Block [9, 9]]⟩ [1, 2, 3, 4, 5, 6, 7] 5 = .ok [9, 9] := by
  refine ⟨?_, ?_, ?_⟩
  · exact (apply_bounds ⟨[Ops.Index 99]⟩ [1, 2, 3, 4, 5, 6, 7, 8, 9, 10] 5
      (by decide)).1.mpr ⟨99, by decide, by decide⟩
  · exact (apply_bounds ⟨[Ops.Index 1]⟩ [1, 2, 3, 4, 5, 6, 7] 5 (by decide)).2.1 1
      (by decide) (by decide)
  · exact (apply_bounds ⟨[Ops.Block [9, 9]]⟩ [1, 2, 3, 4, 5, 6, 7] 5 (by decide)).2.2
      [9, 9]

/-! ### C10: `dump` totality on UTF-8 deltas, panic otherwise -/

/-- A panicked `dump` fold stays panicked. -/
theorem dump_foldl_none (ops : List Ops) :
    ops.foldl Delta.dumpStep none = none := by
  induction ops with
  | nil => rfl
  | cons op rest ih => cases op <;> simpa [Delta.dumpStep] using ih

/-- When every literal block is valid UTF-8, the `dump` fold concatenates the
renderings of the ops after any accumulator. -/
theorem dump_foldl_some (ops : List Ops)
    (hvalid : ∀ b, Ops.Block b ∈ ops → validUtf8 b) :
    ∀ acc, ops.foldl Delta.dumpStep (some acc) =
      some (acc ++ (ops.map renderOp).flatten) := by
  induction ops with
  | nil => intro acc; simp
  | cons op rest ih =>
      intro acc
      have hrest : ∀ b, Ops.Block b ∈ rest → validUtf8 b := fun b hb =>
        hvalid b (List.mem_cons_of_mem _ hb)
      cases op with
      | Index j =>
          rw [List.foldl_cons, show Delta.dumpStep (some acc) (Ops.Index j) =
            some (acc ++ indexRender j) from rfl, ih hrest]
          simp [renderOp]
      | Block b =>
          have hb : validUtf8 b = true := hvalid b (List.mem_cons_self _ _)
          rw [List.foldl_cons, show Delta.dumpStep (some acc) (Ops.Block b) =
            some (acc ++ b) from by simp [Delta.dumpStep, hb], ih hrest]
          simp [renderOp]

/-- The `dump` fold panics iff some literal block is invalid UTF-8. -/
theorem dump_foldl_none_iff (ops : List Ops) :
    ∀ acc, (ops.foldl Delta.dumpStep (some acc) = none ↔
      ∃ b, Ops.Block b ∈ ops ∧ ¬ validUtf8 b) := by
  induction ops with
  | nil => intro acc; simp
  | cons op rest ih =>
      intro acc
      cases op with
      | Index j =>
          rw [List.foldl_cons, show Delta.dumpStep (some acc) (Ops.Index j) =
            some (acc ++ indexRender j) from rfl, ih]
          simp
      | Block b =>
          by_cases hb : validUtf8 b
          · rw [List.foldl_cons, show Delta.dumpStep (some acc) (Ops.Block b) =
              some (acc ++ b) from by simp [Delta.dumpStep, hb], ih]
            constructor
            · rintro ⟨b', hb', hv⟩
              exact ⟨b', List.mem_cons_of_mem _ hb', hv⟩
            · rintro ⟨b', hmem, hv⟩
              rcases List.mem_cons.mp hmem with heq | hmem'
              · cases heq
                exact absurd hb hv
              · exact ⟨b', hmem', hv⟩
          · rw [List.foldl_cons, show Delta.dumpStep (some acc) (Ops.Block b) =
              none from by simp [Delta.dumpStep, hb], dump_foldl_none]
            simp only [true_iff]
            exact ⟨b, List.mem_cons_self _ _, hb⟩

/-- **C10.**  `Delta::dump` is partial: on a delta whose `Block` ops are all
valid UTF-8 it returns the concatenation, in op order, of each `Block`'s text
and `<b*i*>` for each `Index(i)`; it panics (modelled `none`) exactly when
some `Block`'s bytes are not valid UTF-8. -/
theorem dump_utf8_characterization (d : Delta) :
    ((∀ b, Ops.Block b ∈ d.ops → validUtf8 b) →
      d.dump = some ((d.ops.map renderOp).flatten)) ∧
    (d.dump = none ↔ ∃ b, Ops.Block b ∈ d.ops ∧ ¬ validUtf8 b) := by
  constructor
  · intro hvalid
    simpa using dump_foldl_some d.ops hvalid []
  · exact dump_foldl_none_iff d.ops []

/-- Witness for `dump_utf8_characterization`: the source's `dump_part_index` test
(`[Block "abc", Index 0]` dumps to `abc<b*0*>`) and a panicking delta holding
the invalid UTF-8 byte `0xFF`. -/
theorem dump_utf8_characterization_witness :
    Delta.dump ⟨[Ops.Block [97, 98, 99], Ops.Index 0]⟩ =
      some [97, 98, 99, 60, 98, 42, 48, 42, 62] ∧
    Delta.dump ⟨[Ops.Block [255]]⟩ = none := by
  constructor
  · have h := (dump_utf8_characterization ⟨[Ops.Block [97, 98, 99], Ops.Index 0]⟩).1 ?hv
    case hv =>
      intro b hb
      rcases List.mem_cons.mp hb with heq | hb'
      · cases heq
        decide
      · simp at hb'
    simpa using h
  · exact (dump_utf8_characterization ⟨[Ops.Block [255]]⟩).2.mpr
      ⟨[255], List.mem_cons_self _ _, by decide⟩

/-- Witness for `short_base_degenerate_entry` on a concrete short base. -/
theorem short_base_degenerate_entry_witness :
    (Delta.buildIndexTable [5, 6] 3).map =
      [(Delta.shortBaseWeakVal [5, 6], ⟨compute_strong_signature [5, 6], 0⟩)] ∧
    Delta.shortBaseWeakVal [5, 6] = ((11 : Nat) : Int) % 2 ^ 16 := by
  have h := short_base_degenerate_entry [5, 6] 3 (by decide)
  exact ⟨h.1, h.2.1⟩

end OxideSync
